import Mathlib

/-!
Verification of the simple-harmonic-motion simulator (script.js).

The development shallowly embeds the kinematic evaluation and time-windowed
charting subsystem of the simulator: the pure kinematics functions
(calculateOmega, calculatePeriod, getAmplitude, calculatePosition,
calculateVelocity, calculateAcceleration), the rolling sample buffer
(addDataPoint with its front-eviction loop), the simulation control functions
(startSimulation, pauseSimulation, resetSimulation), the per-frame clock
update (animate), the drag-interaction back-solve of time from a position
(handleSpringDrag / handlePendulumDrag), and the analytic key-point
annotator (calculateKeyPoints).  JavaScript numbers are modelled as real
numbers; arrays of chart points as lists; the DOM and canvas collaborators
are out of scope per the specification.
-/

noncomputable section

open Real

/-- Simulation mode, the `simulationMode` global: spring or pendulum. -/
inductive Mode
  | spring
  | pendulum
deriving DecidableEq

/-- The `params` object of physical parameters. -/
structure Params where
  mass : ℝ
  springConstant : ℝ
  amplitude : ℝ
  pendulumLength : ℝ
  pendulumAngle : ℝ
  gravity : ℝ
  phase : ℝ

/-- calculateOmega: angular frequency, sqrt(k/m) for spring, sqrt(g/L) for pendulum. -/
def calculateOmega (mode : Mode) (p : Params) : ℝ :=
  match mode with
  | Mode.spring => Real.sqrt (p.springConstant / p.mass)
  | Mode.pendulum => Real.sqrt (p.gravity / p.pendulumLength)

/-- calculatePeriod: 2π/ω. -/
def calculatePeriod (mode : Mode) (p : Params) : ℝ :=
  2 * π / calculateOmega mode p

/-- calculateFrequency: 1/period. -/
def calculateFrequency (mode : Mode) (p : Params) : ℝ :=
  1 / calculatePeriod mode p

/-- getAmplitude: the amplitude in metres for spring mode, and the release
angle converted to radians for pendulum mode. -/
def getAmplitude (mode : Mode) (p : Params) : ℝ :=
  match mode with
  | Mode.spring => p.amplitude
  | Mode.pendulum => p.pendulumAngle * π / 180

/-- calculatePosition: A·cos(ωt + φ). -/
def calculatePosition (mode : Mode) (p : Params) (t : ℝ) : ℝ :=
  getAmplitude mode p * Real.cos (calculateOmega mode p * t + p.phase)

/-- calculateVelocity: -A·ω·sin(ωt + φ). -/
def calculateVelocity (mode : Mode) (p : Params) (t : ℝ) : ℝ :=
  -(getAmplitude mode p) * calculateOmega mode p *
    Real.sin (calculateOmega mode p * t + p.phase)

/-- calculateAcceleration: -A·ω·ω·cos(ωt + φ). -/
def calculateAcceleration (mode : Mode) (p : Params) (t : ℝ) : ℝ :=
  -(getAmplitude mode p) * calculateOmega mode p * calculateOmega mode p *
    Real.cos (calculateOmega mode p * t + p.phase)

/-- A chart point `{ x: time, y: value }` as pushed into graphData. -/
structure DataPoint where
  x : ℝ
  y : ℝ

/-- The `graphData` object: one list of points per signal plus the display
window length (the unused maxPoints constant is kept for fidelity). -/
structure GraphData where
  position : List DataPoint
  velocity : List DataPoint
  acceleration : List DataPoint
  maxPoints : ℕ
  timeWindow : ℝ

/-- The eviction `while` loop of addDataPoint: while the position list is
nonempty and its front point is older than minT, shift the front point off
all three lists.  The loop condition inspects only the position list, as in
the source. -/
def evictLoop (minT : ℝ) :
    List DataPoint → List DataPoint → List DataPoint →
      List DataPoint × List DataPoint × List DataPoint
  | [], vel, acc => ([], vel, acc)
  | q :: rest, vel, acc =>
      if q.x < minT then evictLoop minT rest vel.tail acc.tail
      else (q :: rest, vel, acc)

/-- addDataPoint: push one point per series (the pendulum position is
converted to degrees for the chart), then evict stale points from the front
while the oldest position sample is older than `time - timeWindow - 0.5`. -/
def addDataPoint (mode : Mode) (gd : GraphData) (time pos vel acc : ℝ) : GraphData :=
  let positionForGraph := if mode = Mode.pendulum then pos * 180 / π else pos
  let pos2 := gd.position ++ [⟨time, positionForGraph⟩]
  let vel2 := gd.velocity ++ [⟨time, vel⟩]
  let acc2 := gd.acceleration ++ [⟨time, acc⟩]
  let minT := time - gd.timeWindow - 0.5
  let r := evictLoop minT pos2 vel2 acc2
  { gd with position := r.1, velocity := r.2.1, acceleration := r.2.2 }

/-- Clearing of the three series, as performed by resetSimulation and by
handleCanvasMouseDown when a drag starts (and hence on mode switch, which
calls resetSimulation). -/
def clearGraphData (gd : GraphData) : GraphData :=
  { gd with position := [], velocity := [], acceleration := [] }

/-- The `simulation` state object.  The animation-frame handle is modelled
as an optional request identifier. -/
structure Simulation where
  time : ℝ
  isRunning : Bool
  animationId : Option ℕ
  lastTimestamp : ℝ
  timeScale : ℝ

/-- The `validationState` object: one validity flag per parameter field. -/
structure ValidationState where
  mass : Bool
  springConstant : Bool
  amplitude : Bool
  pendulumLength : Bool
  pendulumAngle : Bool
  gravity : Bool
  phase : Bool

/-- hasErrors check of startSimulation:
`Object.values(validationState).some(isValid => !isValid)`. -/
def hasErrors (vs : ValidationState) : Bool :=
  !(vs.mass && vs.springConstant && vs.amplitude && vs.pendulumLength &&
      vs.pendulumAngle && vs.gravity && vs.phase)

/-- startSimulation: a no-op when any parameter is invalid; otherwise, when
not already running, mark running, zero the last frame timestamp and request
an animation frame (`n` is the fresh request id).  The returned flag records
whether a frame was requested. -/
def startSimulation (vs : ValidationState) (sim : Simulation) (n : ℕ) :
    Simulation × Bool :=
  if hasErrors vs then (sim, false)
  else if sim.isRunning then (sim, false)
  else ({ sim with isRunning := true, lastTimestamp := 0, animationId := some n }, true)

/-- pauseSimulation: stop running and cancel the pending frame request. -/
def pauseSimulation (sim : Simulation) : Simulation :=
  { sim with isRunning := false, animationId := none }

/-- resetSimulation: pause, zero the clock, clear all three series. -/
def resetSimulation (sim : Simulation) (gd : GraphData) : Simulation × GraphData :=
  let s := pauseSimulation sim
  ({ s with time := 0, lastTimestamp := 0 }, clearGraphData gd)

/-- One `animate` frame tick: when running, seed the last timestamp on the
first tick (lastTimestamp = 0), compute the wall-clock delta in seconds,
clamp it to 0.1, advance the clock by the clamped delta times the time
scale, evaluate the kinematics at the new time, append to the sample buffer
and request the next frame.  Timestamps are in milliseconds as delivered by
requestAnimationFrame. -/
def animateStep (mode : Mode) (p : Params) (sim : Simulation) (gd : GraphData)
    (timestamp : ℝ) (n : ℕ) : Simulation × GraphData :=
  if sim.isRunning = false then (sim, gd)
  else
    let last0 := if sim.lastTimestamp = 0 then timestamp else sim.lastTimestamp
    let deltaTime := (timestamp - last0) / 1000
    let clampedDelta := min deltaTime 0.1
    let newTime := sim.time + clampedDelta * sim.timeScale
    let pos := calculatePosition mode p newTime
    let vel := calculateVelocity mode p newTime
    let acc := calculateAcceleration mode p newTime
    let gd2 := addDataPoint mode gd newTime pos vel acc
    let sim2 := { sim with time := newTime, lastTimestamp := timestamp, animationId := some n }
    (sim2, gd2)

/-- The `while (internalTime < 0) internalTime += calculatePeriod()` loop of
the drag handlers.  The source loop runs under the precondition that the
period is positive (parameter validity); the model guards on that condition
so the function is total, and behaves exactly as the source whenever the
period is positive. -/
def whileAddPeriod (period t : ℝ) : ℝ :=
  if hp : 0 < period then
    if h : t < 0 then whileAddPeriod period (t + period) else t
  else t
termination_by (Int.ceil (-t / period)).toNat
decreasing_by
  have hkey : -(t + period) / period = -t / period - 1 := by
    field_simp
    ring
  have hpos : 0 < Int.ceil (-t / period) :=
    Int.ceil_pos.mpr (div_pos (neg_pos.mpr h) hp)
  rw [hkey, Int.ceil_sub_one]
  omega

/-- The drag back-solve of handleSpringDrag / handlePendulumDrag: clamp the
displacement ratio to [-1, 1], invert the cosine, subtract the phase, divide
by ω, then normalise into the nonnegative range by repeatedly adding the
period 2π/ω. -/
def dragInternalTime (omega phase x A : ℝ) : ℝ :=
  let r := max (-1) (min 1 (x / A))
  let t0 := (Real.arccos r - phase) / omega
  whileAddPeriod (2 * π / omega) t0

/-- Signal kind selector, the `type` string argument of calculateKeyPoints. -/
inductive SignalType
  | position
  | velocity
  | acceleration
deriving DecidableEq

/-- Per-index candidate key points of calculateKeyPoints: for loop index n,
the analytic times of the maximum, the minimum and the two zero crossings of
the selected signal, plus the plotted extremal values. -/
structure KPCand where
  tMax : ℝ
  tMin : ℝ
  tZero1 : ℝ
  tZero2 : ℝ
  yMax : ℝ
  yMin : ℝ

/-- The per-n candidate computation inside the calculateKeyPoints loop. -/
def kpCand (mode : Mode) (p : Params) (type : SignalType) (n : ℤ) : KPCand :=
  let omega := calculateOmega mode p
  let phi := p.phase
  let A := getAmplitude mode p
  match type with
  | SignalType.position =>
      { tMax := (2 * π * (n : ℝ) - phi) / omega
        tMin := ((2 * (n : ℝ) + 1) * π - phi) / omega
        tZero1 := (π / 2 + 2 * π * (n : ℝ) - phi) / omega
        tZero2 := (3 * π / 2 + 2 * π * (n : ℝ) - phi) / omega
        yMax := if mode = Mode.pendulum then A * 180 / π else A
        yMin := if mode = Mode.pendulum then -A * 180 / π else -A }
  | SignalType.velocity =>
      { tMax := (3 * π / 2 + 2 * π * (n : ℝ) - phi) / omega
        tMin := (π / 2 + 2 * π * (n : ℝ) - phi) / omega
        tZero1 := (2 * π * (n : ℝ) - phi) / omega
        tZero2 := (π + 2 * π * (n : ℝ) - phi) / omega
        yMax := A * omega
        yMin := -(A * omega) }
  | SignalType.acceleration =>
      { tMax := ((2 * (n : ℝ) + 1) * π - phi) / omega
        tMin := (2 * π * (n : ℝ) - phi) / omega
        tZero1 := (π / 2 + 2 * π * (n : ℝ) - phi) / omega
        tZero2 := (3 * π / 2 + 2 * π * (n : ℝ) - phi) / omega
        yMax := A * omega * omega
        yMin := -(A * omega * omega) }

/-- calculateKeyPoints: enumerate loop indices n from
floor((minTime·ω + φ)/2π) - 1 to ceil((maxTime·ω + φ)/2π) + 1, evaluate the
four candidate times per n, and keep each candidate only when it lies in
[minTime, maxTime] and has already occurred (candidate time ≤ the current
simulation time).  Returns (maximos, minimos, ceros). -/
def calculateKeyPoints (mode : Mode) (p : Params) (simTime minTime maxTime : ℝ)
    (type : SignalType) : List DataPoint × List DataPoint × List DataPoint :=
  let omega := calculateOmega mode p
  let phi := p.phase
  let startN : ℤ := Int.floor ((minTime * omega + phi) / (2 * π)) - 1
  let endN : ℤ := Int.ceil ((maxTime * omega + phi) / (2 * π)) + 1
  let ns : List ℤ := (List.range (endN + 1 - startN).toNat).map fun i => startN + (i : ℤ)
  let maximos := ns.filterMap fun n =>
    let c := kpCand mode p type n
    if minTime ≤ c.tMax ∧ c.tMax ≤ maxTime ∧ c.tMax ≤ simTime then
      some ⟨c.tMax, c.yMax⟩ else none
  let minimos := ns.filterMap fun n =>
    let c := kpCand mode p type n
    if minTime ≤ c.tMin ∧ c.tMin ≤ maxTime ∧ c.tMin ≤ simTime then
      some ⟨c.tMin, c.yMin⟩ else none
  let ceros := ns.flatMap fun n =>
    let c := kpCand mode p type n
    (if minTime ≤ c.tZero1 ∧ c.tZero1 ≤ maxTime ∧ c.tZero1 ≤ simTime then
        [(⟨c.tZero1, 0⟩ : DataPoint)] else []) ++
    (if minTime ≤ c.tZero2 ∧ c.tZero2 ≤ maxTime ∧ c.tZero2 ≤ simTime then
        [(⟨c.tZero2, 0⟩ : DataPoint)] else [])
  (maximos, minimos, ceros)

/-- One animate-driven append, as data: the time and the three evaluated
signal values passed to addDataPoint. -/
structure AppendEntry where
  time : ℝ
  pos : ℝ
  vel : ℝ
  acc : ℝ

/-- Run a sequence of addDataPoint calls over the buffer. -/
def runAppends (mode : Mode) (gd : GraphData) (es : List AppendEntry) : GraphData :=
  es.foldl (fun g e => addDataPoint mode g e.time e.pos e.vel e.acc) gd

/-- The point pushed into the position series by addDataPoint for an entry. -/
def posPoint (mode : Mode) (e : AppendEntry) : DataPoint :=
  ⟨e.time, if mode = Mode.pendulum then e.pos * 180 / π else e.pos⟩

/-- The point pushed into the velocity series by addDataPoint for an entry. -/
def velPoint (e : AppendEntry) : DataPoint := ⟨e.time, e.vel⟩

/-- The point pushed into the acceleration series by addDataPoint for an entry. -/
def accPoint (e : AppendEntry) : DataPoint := ⟨e.time, e.acc⟩

/-- The freshly cleared buffer with window W (timeWindow is 5 in the source). -/
def initGD (W : ℝ) : GraphData :=
  { position := [], velocity := [], acceleration := [], maxPoints := 500, timeWindow := W }

/-- The three series are parallel: the velocity and acceleration series carry
exactly the position series' time coordinates, element by element. -/
def Parallel (gd : GraphData) : Prop :=
  gd.velocity.map DataPoint.x = gd.position.map DataPoint.x ∧
  gd.acceleration.map DataPoint.x = gd.position.map DataPoint.x

/-- The position series is ordered by nondecreasing time. -/
def SortedTimes (l : List DataPoint) : Prop :=
  l.Pairwise fun a b => a.x ≤ b.x

/-- Buffer invariant with time bound t: the series are parallel, the
position series is time-sorted, and every held sample is no newer than t. -/
def BufferInv (t : ℝ) (gd : GraphData) : Prop :=
  Parallel gd ∧ SortedTimes gd.position ∧ ∀ q ∈ gd.position, q.x ≤ t

/-- Default parameter values of the `params` object in the source. -/
def defaultParams : Params :=
  { mass := 1, springConstant := 40, amplitude := 0.15, pendulumLength := 1.5,
    pendulumAngle := 10, gravity := 9.8, phase := 0 }

/-- A unit parameter set (ω = 1, A = 1, φ = 0) used for concrete witnesses. -/
def unitParams : Params :=
  { mass := 1, springConstant := 1, amplitude := 1, pendulumLength := 1,
    pendulumAngle := 1, gravity := 1, phase := 0 }

/-! ## Helper lemmas -/

/-- Unfolded form of addDataPoint. -/
theorem addDataPoint_eq (mode : Mode) (gd : GraphData) (t a b c : ℝ) :
    addDataPoint mode gd t a b c =
      { gd with
        position := (evictLoop (t - gd.timeWindow - 0.5)
          (gd.position ++ [⟨t, if mode = Mode.pendulum then a * 180 / π else a⟩])
          (gd.velocity ++ [⟨t, b⟩]) (gd.acceleration ++ [⟨t, c⟩])).1
        velocity := (evictLoop (t - gd.timeWindow - 0.5)
          (gd.position ++ [⟨t, if mode = Mode.pendulum then a * 180 / π else a⟩])
          (gd.velocity ++ [⟨t, b⟩]) (gd.acceleration ++ [⟨t, c⟩])).2.1
        acceleration := (evictLoop (t - gd.timeWindow - 0.5)
          (gd.position ++ [⟨t, if mode = Mode.pendulum then a * 180 / π else a⟩])
          (gd.velocity ++ [⟨t, b⟩]) (gd.acceleration ++ [⟨t, c⟩])).2.2 } := rfl

/-- addDataPoint does not change the display window. -/
theorem addDataPoint_timeWindow (mode : Mode) (gd : GraphData) (t a b c : ℝ) :
    (addDataPoint mode gd t a b c).timeWindow = gd.timeWindow := rfl

/-- The eviction loop only ever removes elements from the front: each output
series is a suffix of the corresponding input series. -/
theorem evictLoop_suffix (minT : ℝ) (pv vv av : List DataPoint) :
    (evictLoop minT pv vv av).1 <:+ pv ∧
    (evictLoop minT pv vv av).2.1 <:+ vv ∧
    (evictLoop minT pv vv av).2.2 <:+ av := by
  induction pv generalizing vv av with
  | nil =>
      simp only [evictLoop]
      exact ⟨List.suffix_refl _, List.suffix_refl _, List.suffix_refl _⟩
  | cons q0 rest ih =>
      by_cases h : q0.x < minT
      · have he : evictLoop minT (q0 :: rest) vv av = evictLoop minT rest vv.tail av.tail := by
          rw [evictLoop, if_pos h]
        rw [he]
        obtain ⟨h1, h2, h3⟩ := ih vv.tail av.tail
        exact ⟨h1.trans (List.suffix_cons q0 rest), h2.trans (List.tail_suffix vv),
          h3.trans (List.tail_suffix av)⟩
      · have he : evictLoop minT (q0 :: rest) vv av = (q0 :: rest, vv, av) := by
          rw [evictLoop, if_neg h]
        rw [he]
        exact ⟨List.suffix_refl _, List.suffix_refl _, List.suffix_refl _⟩

/-- No over-eviction: when the velocity and acceleration series carry the
same time coordinates as the position series, the loop keeps every element
whose time is at least minT, in each of the three series. -/
theorem evictLoop_keep (minT : ℝ) (pv vv av : List DataPoint)
    (hv : vv.map DataPoint.x = pv.map DataPoint.x)
    (ha : av.map DataPoint.x = pv.map DataPoint.x) :
    (∀ q ∈ pv, minT ≤ q.x → q ∈ (evictLoop minT pv vv av).1) ∧
    (∀ q ∈ vv, minT ≤ q.x → q ∈ (evictLoop minT pv vv av).2.1) ∧
    (∀ q ∈ av, minT ≤ q.x → q ∈ (evictLoop minT pv vv av).2.2) := by
  induction pv generalizing vv av with
  | nil =>
      simp only [evictLoop]
      exact ⟨fun q hq => absurd hq (List.not_mem_nil q), fun q hq _ => hq, fun q hq _ => hq⟩
  | cons q0 rest ih =>
      rcases vv with - | ⟨v, vtl⟩
      · simp at hv
      rcases av with - | ⟨a0, atl⟩
      · simp at ha
      simp only [List.map_cons, List.cons.injEq] at hv ha
      obtain ⟨hvx, hvtl⟩ := hv
      obtain ⟨hax, hatl⟩ := ha
      by_cases h : q0.x < minT
      · have he : evictLoop minT (q0 :: rest) (v :: vtl) (a0 :: atl) =
            evictLoop minT rest vtl atl := by
          rw [evictLoop, if_pos h]
          rfl
        rw [he]
        obtain ⟨k1, k2, k3⟩ := ih vtl atl hvtl hatl
        refine ⟨?_, ?_, ?_⟩
        · intro q hq hle
          rcases List.mem_cons.mp hq with hq | hq
          · rw [hq] at hle
            exact absurd h (not_lt.mpr hle)
          · exact k1 q hq hle
        · intro q hq hle
          rcases List.mem_cons.mp hq with hq | hq
          · rw [hq] at hle
            rw [hvx] at hle
            exact absurd h (not_lt.mpr hle)
          · exact k2 q hq hle
        · intro q hq hle
          rcases List.mem_cons.mp hq with hq | hq
          · rw [hq] at hle
            rw [hax] at hle
            exact absurd h (not_lt.mpr hle)
          · exact k3 q hq hle
      · have he : evictLoop minT (q0 :: rest) (v :: vtl) (a0 :: atl) =
            (q0 :: rest, v :: vtl, a0 :: atl) := by
          rw [evictLoop, if_neg h]
        rw [he]
        exact ⟨fun q hq _ => hq, fun q hq _ => hq, fun q hq _ => hq⟩

/-- The loop keeps the three series parallel in their time coordinates. -/
theorem evictLoop_parallel (minT : ℝ) (pv vv av : List DataPoint)
    (hv : vv.map DataPoint.x = pv.map DataPoint.x)
    (ha : av.map DataPoint.x = pv.map DataPoint.x) :
    (evictLoop minT pv vv av).2.1.map DataPoint.x =
      (evictLoop minT pv vv av).1.map DataPoint.x ∧
    (evictLoop minT pv vv av).2.2.map DataPoint.x =
      (evictLoop minT pv vv av).1.map DataPoint.x := by
  induction pv generalizing vv av with
  | nil =>
      simp only [evictLoop]
      have hv0 : vv.map DataPoint.x = [] := by simpa using hv
      have ha0 : av.map DataPoint.x = [] := by simpa using ha
      simpa [hv0, ha0] using ⟨rfl, rfl⟩
  | cons q0 rest ih =>
      rcases vv with - | ⟨v, vtl⟩
      · simp at hv
      rcases av with - | ⟨a0, atl⟩
      · simp at ha
      simp only [List.map_cons, List.cons.injEq] at hv ha
      obtain ⟨hvx, hvtl⟩ := hv
      obtain ⟨hax, hatl⟩ := ha
      by_cases h : q0.x < minT
      · have he : evictLoop minT (q0 :: rest) (v :: vtl) (a0 :: atl) =
            evictLoop minT rest vtl atl := by
          rw [evictLoop, if_pos h]
          rfl
        rw [he]
        exact ih vtl atl hvtl hatl
      · have he : evictLoop minT (q0 :: rest) (v :: vtl) (a0 :: atl) =
            (q0 :: rest, v :: vtl, a0 :: atl) := by
          rw [evictLoop, if_neg h]
        rw [he]
        constructor
        · simp [hvx, hvtl]
        · simp [hax, hatl]

/-- Every element surviving the loop has time at least minT, provided the
position series is time-sorted. -/
theorem evictLoop_lb (minT : ℝ) (pv : List DataPoint) (hs : SortedTimes pv) :
    ∀ (vv av : List DataPoint) (q : DataPoint),
      q ∈ (evictLoop minT pv vv av).1 → minT ≤ q.x := by
  induction pv with
  | nil =>
      intro vv av q hq
      simp [evictLoop] at hq
  | cons q0 rest ih =>
      intro vv av q hq
      rw [SortedTimes, List.pairwise_cons] at hs
      obtain ⟨hh, ht⟩ := hs
      by_cases h : q0.x < minT
      · have he : evictLoop minT (q0 :: rest) vv av = evictLoop minT rest vv.tail av.tail := by
          rw [evictLoop, if_pos h]
        rw [he] at hq
        exact ih ht vv.tail av.tail q hq
      · have he : evictLoop minT (q0 :: rest) vv av = (q0 :: rest, vv, av) := by
          rw [evictLoop, if_neg h]
        rw [he] at hq
        rcases List.mem_cons.mp hq with hq | hq
        · rw [hq]
          exact not_lt.mp h
        · exact (not_lt.mp h).trans (hh q hq)

/-- addDataPoint written with the per-entry pushed points. -/
theorem addDataPoint_entry_eq (mode : Mode) (gd : GraphData) (e : AppendEntry) :
    addDataPoint mode gd e.time e.pos e.vel e.acc =
      { gd with
        position := (evictLoop (e.time - gd.timeWindow - 0.5)
          (gd.position ++ [posPoint mode e]) (gd.velocity ++ [velPoint e])
          (gd.acceleration ++ [accPoint e])).1
        velocity := (evictLoop (e.time - gd.timeWindow - 0.5)
          (gd.position ++ [posPoint mode e]) (gd.velocity ++ [velPoint e])
          (gd.acceleration ++ [accPoint e])).2.1
        acceleration := (evictLoop (e.time - gd.timeWindow - 0.5)
          (gd.position ++ [posPoint mode e]) (gd.velocity ++ [velPoint e])
          (gd.acceleration ++ [accPoint e])).2.2 } := rfl

/-- Pushing one point with a common time onto parallel series yields
parallel series. -/
theorem append_parallel (mode : Mode) (gd : GraphData) (h : Parallel gd) (e : AppendEntry) :
    (gd.velocity ++ [velPoint e]).map DataPoint.x =
      (gd.position ++ [posPoint mode e]).map DataPoint.x ∧
    (gd.acceleration ++ [accPoint e]).map DataPoint.x =
      (gd.position ++ [posPoint mode e]).map DataPoint.x := by
  obtain ⟨hv, ha⟩ := h
  constructor <;> simp [hv, ha, posPoint, velPoint, accPoint]

/-- Appending a point no older than every held sample keeps the series
time-sorted. -/
theorem sorted_append_point (l : List DataPoint) (t0 : ℝ) (q0 : DataPoint)
    (hs : SortedTimes l) (hb : ∀ q ∈ l, q.x ≤ t0) (hle : t0 ≤ q0.x) :
    SortedTimes (l ++ [q0]) := by
  have : List.Pairwise (fun a b => a.x ≤ b.x) (l ++ [q0]) := by
    rw [List.pairwise_append]
    refine ⟨hs, List.pairwise_singleton _ _, ?_⟩
    intro q hq r hr
    rw [List.mem_singleton] at hr
    rw [hr]
    exact (hb q hq).trans hle
  exact this

/-- addDataPoint preserves the buffer invariant, advancing the time bound. -/
theorem addDataPoint_inv (mode : Mode) (gd : GraphData) (t0 : ℝ) (e : AppendEntry)
    (h : BufferInv t0 gd) (hle : t0 ≤ e.time) :
    BufferInv e.time (addDataPoint mode gd e.time e.pos e.vel e.acc) := by
  have h' : Parallel gd ∧ SortedTimes gd.position ∧ ∀ q ∈ gd.position, q.x ≤ t0 := h
  obtain ⟨hpar, hs, hb⟩ := h'
  have hv2 := (append_parallel mode gd hpar e).1
  have ha2 := (append_parallel mode gd hpar e).2
  have hs2 : SortedTimes (gd.position ++ [posPoint mode e]) :=
    sorted_append_point gd.position t0 (posPoint mode e) hs hb hle
  rw [addDataPoint_entry_eq]
  refine ⟨⟨?_, ?_⟩, ?_, ?_⟩
  · exact (evictLoop_parallel _ _ _ _ hv2 ha2).1
  · exact (evictLoop_parallel _ _ _ _ hv2 ha2).2
  · exact List.Pairwise.sublist (evictLoop_suffix _ _ _ _).1.sublist hs2
  · intro q hq
    have hmem : q ∈ gd.position ++ [posPoint mode e] :=
      (evictLoop_suffix _ _ _ _).1.sublist.subset hq
    rcases List.mem_append.mp hmem with hmem | hmem
    · exact (hb q hmem).trans hle
    · rw [List.mem_singleton] at hmem
      rw [hmem]
      exact le_refl e.time

/-- Retention after one append: with the invariant holding beforehand and a
newer append time, every surviving sample in each series has time at least
the new eviction bound. -/
theorem addDataPoint_retention (mode : Mode) (gd : GraphData) (t0 : ℝ) (e : AppendEntry)
    (h : BufferInv t0 gd) (hle : t0 ≤ e.time) :
    (∀ q ∈ (addDataPoint mode gd e.time e.pos e.vel e.acc).position,
      e.time - gd.timeWindow - 0.5 ≤ q.x) ∧
    (∀ q ∈ (addDataPoint mode gd e.time e.pos e.vel e.acc).velocity,
      e.time - gd.timeWindow - 0.5 ≤ q.x) ∧
    (∀ q ∈ (addDataPoint mode gd e.time e.pos e.vel e.acc).acceleration,
      e.time - gd.timeWindow - 0.5 ≤ q.x) := by
  have h' : Parallel gd ∧ SortedTimes gd.position ∧ ∀ q ∈ gd.position, q.x ≤ t0 := h
  obtain ⟨hpar, hs, hb⟩ := h'
  have hv2 := (append_parallel mode gd hpar e).1
  have ha2 := (append_parallel mode gd hpar e).2
  have hs2 : SortedTimes (gd.position ++ [posPoint mode e]) :=
    sorted_append_point gd.position t0 (posPoint mode e) hs hb hle
  rw [addDataPoint_entry_eq]
  have hlb := evictLoop_lb (e.time - gd.timeWindow - 0.5) _ hs2
  have hpar2 := evictLoop_parallel (e.time - gd.timeWindow - 0.5) _ _ _ hv2 ha2
  refine ⟨fun q hq => hlb _ _ q hq, ?_, ?_⟩
  · intro q hq
    have hx : q.x ∈ (evictLoop (e.time - gd.timeWindow - 0.5)
        (gd.position ++ [posPoint mode e]) (gd.velocity ++ [velPoint e])
        (gd.acceleration ++ [accPoint e])).2.1.map DataPoint.x :=
      List.mem_map_of_mem DataPoint.x hq
    rw [hpar2.1] at hx
    obtain ⟨q2, hq2, hq2x⟩ := List.mem_map.mp hx
    rw [← hq2x]
    exact hlb _ _ q2 hq2
  · intro q hq
    have hx : q.x ∈ (evictLoop (e.time - gd.timeWindow - 0.5)
        (gd.position ++ [posPoint mode e]) (gd.velocity ++ [velPoint e])
        (gd.acceleration ++ [accPoint e])).2.2.map DataPoint.x :=
      List.mem_map_of_mem DataPoint.x hq
    rw [hpar2.2] at hx
    obtain ⟨q2, hq2, hq2x⟩ := List.mem_map.mp hx
    rw [← hq2x]
    exact hlb _ _ q2 hq2

/-- In a chain of nondecreasing reals, the head is at most the last element. -/
theorem chain_le_getLast : ∀ (l : List ℝ) (a : ℝ),
    List.Chain' (· ≤ ·) (a :: l) → a ≤ (a :: l).getLast (List.cons_ne_nil a l)
  | [], a, _ => le_of_eq (List.getLast_singleton a (List.cons_ne_nil a [])).symm
  | b :: l, a, h => by
      rw [List.getLast_cons (List.cons_ne_nil b l)]
      obtain ⟨hab, h2⟩ := List.chain'_cons.mp h
      exact hab.trans (chain_le_getLast l b h2)

/-- runAppends on the empty list. -/
theorem runAppends_nil (mode : Mode) (gd : GraphData) : runAppends mode gd [] = gd := rfl

/-- runAppends unfolds one append at a time. -/
theorem runAppends_cons (mode : Mode) (gd : GraphData) (e : AppendEntry)
    (es : List AppendEntry) :
    runAppends mode gd (e :: es) =
      runAppends mode (addDataPoint mode gd e.time e.pos e.vel e.acc) es := rfl

/-- runAppends splits over list concatenation. -/
theorem runAppends_split (mode : Mode) (gd : GraphData) (l1 l2 : List AppendEntry) :
    runAppends mode gd (l1 ++ l2) = runAppends mode (runAppends mode gd l1) l2 :=
  List.foldl_append _ _ _ _

/-- runAppends never changes the display window. -/
theorem runAppends_timeWindow (mode : Mode) : ∀ (es : List AppendEntry) (gd : GraphData),
    (runAppends mode gd es).timeWindow = gd.timeWindow
  | [], _ => rfl
  | e :: es, gd => by
      rw [runAppends_cons, runAppends_timeWindow mode es _, addDataPoint_timeWindow]

/-- The buffer invariant is preserved along a chain of appends with
nondecreasing times; the resulting bound is the last append time. -/
theorem runAppends_inv (mode : Mode) : ∀ (es : List AppendEntry) (gd : GraphData) (t0 : ℝ),
    BufferInv t0 gd → List.Chain' (· ≤ ·) (t0 :: es.map AppendEntry.time) →
    BufferInv ((t0 :: es.map AppendEntry.time).getLast (List.cons_ne_nil _ _))
      (runAppends mode gd es)
  | [], gd, t0, h, _ => by
      rw [runAppends_nil]
      simpa [List.getLast_singleton] using h
  | e :: es, gd, t0, h, hchain => by
      rw [runAppends_cons]
      simp only [List.map_cons] at hchain ⊢
      obtain ⟨h1, h2⟩ := List.chain'_cons.mp hchain
      have hinv2 := addDataPoint_inv mode gd t0 e h h1
      have hrec := runAppends_inv mode es _ e.time hinv2 h2
      rw [List.getLast_cons (List.cons_ne_nil _ _)]
      exact hrec

/-- Any sample already in the buffer whose time is at least the final
eviction bound survives the whole chain of appends, in each series. -/
theorem runAppends_keep (mode : Mode) : ∀ (es : List AppendEntry) (gd : GraphData) (t0 : ℝ),
    BufferInv t0 gd → List.Chain' (· ≤ ·) (t0 :: es.map AppendEntry.time) →
    ∀ q : DataPoint,
      (t0 :: es.map AppendEntry.time).getLast (List.cons_ne_nil _ _) -
          gd.timeWindow - 0.5 ≤ q.x →
      (q ∈ gd.position → q ∈ (runAppends mode gd es).position) ∧
      (q ∈ gd.velocity → q ∈ (runAppends mode gd es).velocity) ∧
      (q ∈ gd.acceleration → q ∈ (runAppends mode gd es).acceleration)
  | [], gd, t0, _, _, q, _ => ⟨id, id, id⟩
  | e :: es, gd, t0, h, hchain, q, hx => by
      have h' : Parallel gd ∧ SortedTimes gd.position ∧ ∀ r ∈ gd.position, r.x ≤ t0 := h
      simp only [List.map_cons] at hchain hx
      obtain ⟨h1, h2⟩ := List.chain'_cons.mp hchain
      rw [List.getLast_cons (List.cons_ne_nil _ _)] at hx
      have hlast := chain_le_getLast _ _ h2
      have hminT : e.time - gd.timeWindow - 0.5 ≤ q.x := by linarith
      rw [runAppends_cons]
      have hinv2 := addDataPoint_inv mode gd t0 e h h1
      have hrec := runAppends_keep mode es _ e.time hinv2 h2 q
        (by rw [addDataPoint_timeWindow]; exact hx)
      have hkeep := evictLoop_keep (e.time - gd.timeWindow - 0.5) _ _ _
        (append_parallel mode gd h'.1 e).1 (append_parallel mode gd h'.1 e).2
      refine ⟨fun hq => hrec.1 ?_, fun hq => hrec.2.1 ?_, fun hq => hrec.2.2 ?_⟩
      · rw [addDataPoint_entry_eq]
        exact hkeep.1 q (List.mem_append_left _ hq) hminT
      · rw [addDataPoint_entry_eq]
        exact hkeep.2.1 q (List.mem_append_left _ hq) hminT
      · rw [addDataPoint_entry_eq]
        exact hkeep.2.2 q (List.mem_append_left _ hq) hminT

/-- No over-eviction along a chain of appends: every appended entry whose
time is at least the final eviction bound is present in the final series. -/
theorem runAppends_insert (mode : Mode) : ∀ (es : List AppendEntry) (gd : GraphData) (t0 : ℝ),
    BufferInv t0 gd → List.Chain' (· ≤ ·) (t0 :: es.map AppendEntry.time) →
    0 ≤ gd.timeWindow →
    ∀ e ∈ es,
      (t0 :: es.map AppendEntry.time).getLast (List.cons_ne_nil _ _) -
          gd.timeWindow - 0.5 ≤ e.time →
      posPoint mode e ∈ (runAppends mode gd es).position ∧
      velPoint e ∈ (runAppends mode gd es).velocity ∧
      accPoint e ∈ (runAppends mode gd es).acceleration
  | [], _, _, _, _, _, e, he, _ => absurd he (List.not_mem_nil e)
  | e0 :: es, gd, t0, h, hchain, hW, e, he, hx => by
      have h' : Parallel gd ∧ SortedTimes gd.position ∧ ∀ r ∈ gd.position, r.x ≤ t0 := h
      simp only [List.map_cons] at hchain hx
      obtain ⟨h1, h2⟩ := List.chain'_cons.mp hchain
      rw [List.getLast_cons (List.cons_ne_nil _ _)] at hx
      have hinv2 := addDataPoint_inv mode gd t0 e0 h h1
      rw [runAppends_cons]
      rcases List.mem_cons.mp he with he0 | hes
      · have hkeep := evictLoop_keep (e0.time - gd.timeWindow - 0.5) _ _ _
          (append_parallel mode gd h'.1 e0).1 (append_parallel mode gd h'.1 e0).2
        have hfresh : e0.time - gd.timeWindow - 0.5 ≤ e0.time := by linarith
        have hp : posPoint mode e0 ∈
            (addDataPoint mode gd e0.time e0.pos e0.vel e0.acc).position := by
          rw [addDataPoint_entry_eq]
          exact hkeep.1 _ (List.mem_append_right _ (List.mem_singleton.mpr rfl)) hfresh
        have hvm : velPoint e0 ∈
            (addDataPoint mode gd e0.time e0.pos e0.vel e0.acc).velocity := by
          rw [addDataPoint_entry_eq]
          exact hkeep.2.1 _ (List.mem_append_right _ (List.mem_singleton.mpr rfl)) hfresh
        have ham : accPoint e0 ∈
            (addDataPoint mode gd e0.time e0.pos e0.vel e0.acc).acceleration := by
          rw [addDataPoint_entry_eq]
          exact hkeep.2.2 _ (List.mem_append_right _ (List.mem_singleton.mpr rfl)) hfresh
        have hxe : (e0.time :: es.map AppendEntry.time).getLast (List.cons_ne_nil _ _) -
            gd.timeWindow - 0.5 ≤ e0.time := by
          rw [he0] at hx
          exact hx
        have hk1 := runAppends_keep mode es _ e0.time hinv2 h2 (posPoint mode e0)
          (by rw [addDataPoint_timeWindow]; exact hxe)
        have hk2 := runAppends_keep mode es _ e0.time hinv2 h2 (velPoint e0)
          (by rw [addDataPoint_timeWindow]; exact hxe)
        have hk3 := runAppends_keep mode es _ e0.time hinv2 h2 (accPoint e0)
          (by rw [addDataPoint_timeWindow]; exact hxe)
        rw [he0]
        exact ⟨hk1.1 hp, hk2.2.1 hvm, hk3.2.2 ham⟩
      · exact runAppends_insert mode es _ e0.time hinv2 h2
          (by rw [addDataPoint_timeWindow]; exact hW) e hes
          (by rw [addDataPoint_timeWindow]; exact hx)

/-- Appending on the right preserves the suffix relation. -/
theorem suffix_append_right {α : Type} {l1 l2 : List α} (m : List α) (h : l1 <:+ l2) :
    l1 ++ m <:+ l2 ++ m := by
  obtain ⟨t, ht⟩ := h
  exact ⟨t, by rw [← List.append_assoc, ht]⟩

/-- Each final series is a suffix of the held samples followed by all
appended points: samples are only ever removed from the front. -/
theorem runAppends_suffix (mode : Mode) : ∀ (es : List AppendEntry) (gd : GraphData),
    (runAppends mode gd es).position <:+ gd.position ++ es.map (posPoint mode) ∧
    (runAppends mode gd es).velocity <:+ gd.velocity ++ es.map velPoint ∧
    (runAppends mode gd es).acceleration <:+ gd.acceleration ++ es.map accPoint
  | [], gd => by
      simp only [runAppends_nil, List.map_nil, List.append_nil]
      exact ⟨List.suffix_refl _, List.suffix_refl _, List.suffix_refl _⟩
  | e :: es, gd => by
      rw [runAppends_cons]
      obtain ⟨i1, i2, i3⟩ :=
        runAppends_suffix mode es (addDataPoint mode gd e.time e.pos e.vel e.acc)
      obtain ⟨s1, s2, s3⟩ := evictLoop_suffix (e.time - gd.timeWindow - 0.5)
        (gd.position ++ [posPoint mode e]) (gd.velocity ++ [velPoint e])
        (gd.acceleration ++ [accPoint e])
      simp only [List.map_cons]
      refine ⟨i1.trans ?_, i2.trans ?_, i3.trans ?_⟩
      · have hstep : (addDataPoint mode gd e.time e.pos e.vel e.acc).position <:+
            gd.position ++ [posPoint mode e] := by
          rw [addDataPoint_entry_eq]
          exact s1
        have := suffix_append_right (es.map (posPoint mode)) hstep
        rw [List.append_assoc, List.singleton_append] at this
        exact this
      · have hstep : (addDataPoint mode gd e.time e.pos e.vel e.acc).velocity <:+
            gd.velocity ++ [velPoint e] := by
          rw [addDataPoint_entry_eq]
          exact s2
        have := suffix_append_right (es.map velPoint) hstep
        rw [List.append_assoc, List.singleton_append] at this
        exact this
      · have hstep : (addDataPoint mode gd e.time e.pos e.vel e.acc).acceleration <:+
            gd.acceleration ++ [accPoint e] := by
          rw [addDataPoint_entry_eq]
          exact s3
        have := suffix_append_right (es.map accPoint) hstep
        rw [List.append_assoc, List.singleton_append] at this
        exact this

/-- The normalisation loop returns its argument unchanged when it is already
nonnegative. -/
theorem whileAddPeriod_of_nonneg (period t : ℝ) (h : 0 ≤ t) :
    whileAddPeriod period t = t := by
  rw [whileAddPeriod]
  simp [not_lt.mpr h]

/-- One unfolding of the normalisation loop in the looping case. -/
theorem whileAddPeriod_of_neg (period t : ℝ) (hp : 0 < period) (h : t < 0) :
    whileAddPeriod period t = whileAddPeriod period (t + period) := by
  rw [whileAddPeriod, dif_pos hp, dif_pos h]

/-- Range of the normalisation loop: starting anywhere in [-period, period),
the loop lands in [0, period). -/
theorem whileAddPeriod_mem_range (period t : ℝ) (hp : 0 < period)
    (h1 : -period ≤ t) (h2 : t < period) :
    0 ≤ whileAddPeriod period t ∧ whileAddPeriod period t < period := by
  by_cases h : t < 0
  · rw [whileAddPeriod_of_neg period t hp h,
      whileAddPeriod_of_nonneg period (t + period) (by linarith)]
    constructor <;> linarith
  · rw [whileAddPeriod_of_nonneg period t (not_lt.1 h)]
    exact ⟨not_lt.1 h, h2⟩

/-! ## Claim theorems -/

/-- Claim C7: for every dragged position/angle, with phase in [0, 2π] and
ω > 0, the drag handler's back-solve — internalTime = (acos(clamp(x/A, -1, 1))
- phase)/ω followed by the loop adding the period while internalTime < 0
— terminates (dragInternalTime is a total function) and the resulting
internal time lies in [0, period), period = 2π/ω. -/
theorem drag_backsolve_in_period (omega phase x A : ℝ) (hw : 0 < omega)
    (hp0 : 0 ≤ phase) (hp2 : phase ≤ 2 * π) :
    0 ≤ dragInternalTime omega phase x A ∧
      dragInternalTime omega phase x A < 2 * π / omega := by
  unfold dragInternalTime
  have ha0 : 0 ≤ Real.arccos (max (-1) (min 1 (x / A))) :=
    Real.arccos_nonneg _
  have ha1 : Real.arccos (max (-1) (min 1 (x / A))) ≤ π :=
    Real.arccos_le_pi _
  have hper : 0 < 2 * π / omega := by positivity
  refine whileAddPeriod_mem_range _ _ hper ?_ ?_
  · have hrw : -(2 * π / omega) = -(2 * π) / omega := by ring
    rw [hrw, div_le_div_iff_of_pos_right hw]
    linarith
  · rw [div_lt_div_iff_of_pos_right hw]
    linarith [Real.pi_pos]

/-- Claim C7 witness: at ω = 1, φ = 0, x = 0, A = 1 the hypotheses hold and
the solved time lies in [0, 2π). -/
theorem drag_backsolve_in_period_witness :
    (0 : ℝ) < 1 ∧ (0 : ℝ) ≤ 0 ∧ (0 : ℝ) ≤ 2 * π ∧
      (0 ≤ dragInternalTime 1 0 0 1 ∧ dragInternalTime 1 0 0 1 < 2 * π / 1) :=
  ⟨one_pos, le_refl 0, by positivity,
    drag_backsolve_in_period 1 0 0 1 one_pos (le_refl 0) (by positivity)⟩

/-- Claim C1: the kinematics evaluator computes ω = sqrt(k/m) in spring mode
and sqrt(g/L) in pendulum mode, amplitude A = amplitude (spring) or
pendulumAngle·π/180 (pendulum), and for every mode position(t) = A·cos(ωt+φ),
velocity(t) = -A·ω·sin(ωt+φ), acceleration(t) = -A·ω²·cos(ωt+φ), assuming
positive mass, spring constant, gravity and pendulum length. -/
theorem kinematics_formulas (p : Params) (t : ℝ)
    (hm : 0 < p.mass) (hk : 0 < p.springConstant)
    (hg : 0 < p.gravity) (hl : 0 < p.pendulumLength) :
    calculateOmega Mode.spring p = Real.sqrt (p.springConstant / p.mass) ∧
    calculateOmega Mode.pendulum p = Real.sqrt (p.gravity / p.pendulumLength) ∧
    getAmplitude Mode.spring p = p.amplitude ∧
    getAmplitude Mode.pendulum p = p.pendulumAngle * π / 180 ∧
    (∀ mode, calculatePosition mode p t =
      getAmplitude mode p * Real.cos (calculateOmega mode p * t + p.phase)) ∧
    (∀ mode, calculateVelocity mode p t =
      -(getAmplitude mode p) * calculateOmega mode p *
        Real.sin (calculateOmega mode p * t + p.phase)) ∧
    (∀ mode, calculateAcceleration mode p t =
      -(getAmplitude mode p) * (calculateOmega mode p) ^ 2 *
        Real.cos (calculateOmega mode p * t + p.phase)) := by
  refine ⟨rfl, rfl, rfl, rfl, fun mode => rfl, fun mode => rfl, fun mode => ?_⟩
  unfold calculateAcceleration
  ring

/-- Claim C1 witness: the default parameter set is positive and satisfies the
formulas at t = 0. -/
theorem kinematics_formulas_witness :
    (0 : ℝ) < defaultParams.mass ∧ (0 : ℝ) < defaultParams.springConstant ∧
    (0 : ℝ) < defaultParams.gravity ∧ (0 : ℝ) < defaultParams.pendulumLength ∧
    (calculateOmega Mode.spring defaultParams =
        Real.sqrt (defaultParams.springConstant / defaultParams.mass) ∧
      calculateOmega Mode.pendulum defaultParams =
        Real.sqrt (defaultParams.gravity / defaultParams.pendulumLength) ∧
      getAmplitude Mode.spring defaultParams = defaultParams.amplitude ∧
      getAmplitude Mode.pendulum defaultParams =
        defaultParams.pendulumAngle * π / 180 ∧
      (∀ mode, calculatePosition mode defaultParams 0 =
        getAmplitude mode defaultParams *
          Real.cos (calculateOmega mode defaultParams * 0 + defaultParams.phase)) ∧
      (∀ mode, calculateVelocity mode defaultParams 0 =
        -(getAmplitude mode defaultParams) * calculateOmega mode defaultParams *
          Real.sin (calculateOmega mode defaultParams * 0 + defaultParams.phase)) ∧
      (∀ mode, calculateAcceleration mode defaultParams 0 =
        -(getAmplitude mode defaultParams) * (calculateOmega mode defaultParams) ^ 2 *
          Real.cos (calculateOmega mode defaultParams * 0 + defaultParams.phase))) :=
  ⟨by norm_num [defaultParams], by norm_num [defaultParams],
    by norm_num [defaultParams], by norm_num [defaultParams],
    kinematics_formulas defaultParams 0 (by norm_num [defaultParams])
      (by norm_num [defaultParams]) (by norm_num [defaultParams])
      (by norm_num [defaultParams])⟩

/-- Claim C5: for every mode, parameter set and time, acceleration(t) equals
-ω² times position(t). -/
theorem acceleration_eq_neg_omega_sq_mul_position (mode : Mode) (p : Params) (t : ℝ) :
    calculateAcceleration mode p t =
      -(calculateOmega mode p) ^ 2 * calculatePosition mode p t := by
  unfold calculateAcceleration calculatePosition
  ring

/-- Claim C6: the SHM energy-conservation identity
position(t)²/A² + velocity(t)²/(A·ω)² = 1, for A > 0 and ω > 0. -/
theorem shm_energy_identity (mode : Mode) (p : Params) (t : ℝ)
    (hA : 0 < getAmplitude mode p) (hw : 0 < calculateOmega mode p) :
    (calculatePosition mode p t) ^ 2 / (getAmplitude mode p) ^ 2 +
      (calculateVelocity mode p t) ^ 2 /
        (getAmplitude mode p * calculateOmega mode p) ^ 2 = 1 := by
  have hA0 : getAmplitude mode p ≠ 0 := ne_of_gt hA
  have hw0 : calculateOmega mode p ≠ 0 := ne_of_gt hw
  have h := Real.sin_sq_add_cos_sq (calculateOmega mode p * t + p.phase)
  unfold calculatePosition calculateVelocity
  field_simp
  linear_combination (getAmplitude mode p) ^ 4 * (calculateOmega mode p) ^ 2 * h

/-- Claim C6 witness: spring mode at the default parameters has A > 0 and
ω > 0, and the identity holds at t = 0. -/
theorem shm_energy_identity_witness :
    0 < getAmplitude Mode.spring defaultParams ∧
    0 < calculateOmega Mode.spring defaultParams ∧
    (calculatePosition Mode.spring defaultParams 0) ^ 2 /
        (getAmplitude Mode.spring defaultParams) ^ 2 +
      (calculateVelocity Mode.spring defaultParams 0) ^ 2 /
        (getAmplitude Mode.spring defaultParams *
          calculateOmega Mode.spring defaultParams) ^ 2 = 1 := by
  have hA : 0 < getAmplitude Mode.spring defaultParams := by
    norm_num [getAmplitude, defaultParams]
  have hw : 0 < calculateOmega Mode.spring defaultParams := by
    unfold calculateOmega defaultParams
    positivity
  exact ⟨hA, hw, shm_energy_identity Mode.spring defaultParams 0 hA hw⟩

/-- Claim C4: when any parameter field is marked invalid, startSimulation is
a no-op: the simulation state (clock, running flag, frame handle) is
returned unchanged and no animation frame is requested. -/
theorem start_noop_when_invalid (vs : ValidationState) (sim : Simulation) (n : ℕ)
    (h : hasErrors vs = true) :
    startSimulation vs sim n = (sim, false) := by
  unfold startSimulation
  simp [h]

/-- Claim C4 witness: with the mass field marked invalid, starting from an
idle simulation changes nothing and requests no frame. -/
theorem start_noop_when_invalid_witness :
    hasErrors ⟨false, true, true, true, true, true, true⟩ = true ∧
      startSimulation ⟨false, true, true, true, true, true, true⟩
        ⟨0, false, none, 0, 1⟩ 0 = (⟨0, false, none, 0, 1⟩, false) :=
  ⟨rfl, start_noop_when_invalid ⟨false, true, true, true, true, true, true⟩
    ⟨0, false, none, 0, 1⟩ 0 rfl⟩

/-- Claim C8: on a frame tick while running, the clock advances by exactly
min(Δ, 0.1)·timeScale where Δ = (frameTimestamp - lastFrameTimestamp)/1000
is the frame gap in seconds — hence by at most 0.1·timeScale when the time
scale is nonnegative — and on the first tick after a start (lastTimestamp
seeded to 0 by startSimulation) the last timestamp is seeded from the
current tick and the clock does not advance. -/
theorem frame_tick_advance (mode : Mode) (p : Params) (sim : Simulation)
    (gd : GraphData) (ts : ℝ) (n : ℕ)
    (hrun : sim.isRunning = true) (hscale : 0 ≤ sim.timeScale) :
    (sim.lastTimestamp ≠ 0 →
      (animateStep mode p sim gd ts n).1.time =
        sim.time + min ((ts - sim.lastTimestamp) / 1000) 0.1 * sim.timeScale) ∧
    (sim.lastTimestamp = 0 →
      (animateStep mode p sim gd ts n).1.time = sim.time) ∧
    (animateStep mode p sim gd ts n).1.lastTimestamp = ts ∧
    (animateStep mode p sim gd ts n).1.time ≤ sim.time + 0.1 * sim.timeScale := by
  have ht : (animateStep mode p sim gd ts n).1.time =
      sim.time +
        min ((ts - (if sim.lastTimestamp = 0 then ts else sim.lastTimestamp)) / 1000) 0.1 *
          sim.timeScale := by
    unfold animateStep
    rw [hrun]
    simp
  have hl : (animateStep mode p sim gd ts n).1.lastTimestamp = ts := by
    unfold animateStep
    rw [hrun]
    simp
  refine ⟨fun h0 => ?_, fun h0 => ?_, hl, ?_⟩
  · rw [ht, if_neg h0]
  · rw [ht, if_pos h0, sub_self, zero_div]
    rw [min_eq_left (by norm_num : (0 : ℝ) ≤ 0.1)]
    ring
  · rw [ht]
    have hmin :
        min ((ts - (if sim.lastTimestamp = 0 then ts else sim.lastTimestamp)) / 1000) 0.1
          ≤ 0.1 := min_le_right _ _
    have hmul := mul_le_mul_of_nonneg_right hmin hscale
    linarith

/-- Claim C8 witness: a running simulation with seeded lastTimestamp 1000
ticking at timestamp 1050 advances by exactly min(0.05, 0.1)·1, and a
running simulation with lastTimestamp 0 does not advance. -/
theorem frame_tick_advance_witness :
    ((⟨0, true, none, 1000, 1⟩ : Simulation).isRunning = true ∧
      (0 : ℝ) ≤ (⟨0, true, none, 1000, 1⟩ : Simulation).timeScale) ∧
    ((1000 : ℝ) ≠ 0 →
      (animateStep Mode.spring unitParams ⟨0, true, none, 1000, 1⟩ (initGD 5) 1050 1).1.time =
        0 + min ((1050 - 1000) / 1000) 0.1 * 1) ∧
    ((animateStep Mode.spring unitParams ⟨0, true, none, 1000, 1⟩ (initGD 5) 1050 1).1.time ≤
        0 + 0.1 * 1) := by
  have h := frame_tick_advance Mode.spring unitParams
    ⟨0, true, none, 1000, 1⟩ (initGD 5) 1050 1 rfl (by norm_num)
  exact ⟨⟨rfl, by norm_num⟩, h.1, h.2.2.2⟩

/-- Claim C9: with an empty window (minTime > maxTime) the key-point
annotator returns three empty lists, for every signal kind and every
parameter set with ω > 0. -/
theorem keypoints_empty_window (mode : Mode) (p : Params)
    (simTime minTime maxTime : ℝ) (type : SignalType)
    (hw : 0 < calculateOmega mode p) (h : maxTime < minTime) :
    calculateKeyPoints mode p simTime minTime maxTime type = ([], [], []) := by
  unfold calculateKeyPoints
  refine Prod.ext ?_ (Prod.ext ?_ ?_)
  · simp only
    rw [List.filterMap_eq_nil]
    intro n _
    rw [if_neg]
    rintro ⟨h1, h2, -⟩
    linarith
  · simp only
    rw [List.filterMap_eq_nil]
    intro n _
    rw [if_neg]
    rintro ⟨h1, h2, -⟩
    linarith
  · simp only
    rw [List.bind_eq_nil]
    intro n _
    rw [if_neg, if_neg]
    · rfl
    · rintro ⟨h1, h2, -⟩
      linarith
    · rintro ⟨h1, h2, -⟩
      linarith

/-- Claim C2: the key-point annotator never returns a point that has not yet
occurred: every returned maximum, minimum and zero-crossing has time at most
the current simulation time, for every window, signal kind and parameter
set. -/
theorem keypoints_not_future (mode : Mode) (p : Params)
    (simTime minTime maxTime : ℝ) (type : SignalType) :
    (∀ q ∈ (calculateKeyPoints mode p simTime minTime maxTime type).1, q.x ≤ simTime) ∧
    (∀ q ∈ (calculateKeyPoints mode p simTime minTime maxTime type).2.1, q.x ≤ simTime) ∧
    (∀ q ∈ (calculateKeyPoints mode p simTime minTime maxTime type).2.2, q.x ≤ simTime) := by
  unfold calculateKeyPoints
  refine ⟨?_, ?_, ?_⟩
  · intro q hq
    simp only [List.mem_filterMap] at hq
    obtain ⟨n, -, hn⟩ := hq
    split at hn
    · next hcond =>
        cases hn
        exact hcond.2.2
    · exact absurd hn (by simp)
  · intro q hq
    simp only [List.mem_filterMap] at hq
    obtain ⟨n, -, hn⟩ := hq
    split at hn
    · next hcond =>
        cases hn
        exact hcond.2.2
    · exact absurd hn (by simp)
  · intro q hq
    simp only [List.mem_bind] at hq
    obtain ⟨n, -, hn⟩ := hq
    rw [List.mem_append] at hn
    rcases hn with hn | hn <;> split at hn
    · next hcond =>
        rw [List.mem_singleton] at hn
        rw [hn]
        exact hcond.2.2
    · exact absurd hn (by simp)
    · next hcond =>
        rw [List.mem_singleton] at hn
        rw [hn]
        exact hcond.2.2
    · exact absurd hn (by simp)

/-- Claim C2 witness: in spring mode with ω = 1, φ = 0, window [0, 0] and
current time 0, the returned position maxima contain the point (0, 1), whose
time indeed does not exceed the current time. -/
theorem keypoints_not_future_witness :
    (⟨0, 1⟩ : DataPoint) ∈
        (calculateKeyPoints Mode.spring unitParams 0 0 0 SignalType.position).1 ∧
      (⟨0, 1⟩ : DataPoint).x ≤ 0 := by
  have hω : calculateOmega Mode.spring unitParams = 1 := by
    unfold calculateOmega unitParams
    norm_num
  have hphi : unitParams.phase = 0 := rfl
  have hA : getAmplitude Mode.spring unitParams = 1 := rfl
  have hmem : (⟨0, 1⟩ : DataPoint) ∈
      (calculateKeyPoints Mode.spring unitParams 0 0 0 SignalType.position).1 := by
    unfold calculateKeyPoints
    simp only [hω, hphi]
    norm_num
    refine ⟨1, ⟨1, by norm_num, rfl⟩, ?_⟩
    norm_num [kpCand, hω, hphi, hA]
    exact fun h => nomatch h
  exact ⟨hmem,
    (keypoints_not_future Mode.spring unitParams 0 0 0 SignalType.position).1 _ hmem⟩

/-- Monotonicity of the buffer invariant in its time bound. -/
theorem bufferInv_mono (t t2 : ℝ) (gd : GraphData) (h : BufferInv t gd) (hle : t ≤ t2) :
    BufferInv t2 gd := by
  have h' : Parallel gd ∧ SortedTimes gd.position ∧ ∀ q ∈ gd.position, q.x ≤ t := h
  exact ⟨h'.1, h'.2.1, fun q hq => (h'.2.2 q hq).trans hle⟩

/-- The empty buffer satisfies the invariant at every time bound. -/
theorem initGD_inv (W t : ℝ) : BufferInv t (initGD W) :=
  ⟨⟨rfl, rfl⟩, List.Pairwise.nil, fun q hq => absurd hq (List.not_mem_nil q)⟩

/-- Claim C3: for every sequence of appends with nondecreasing times, ending
at time T, run from an empty buffer with window W ≥ 0: after the last append
every retained sample in each of the three series has time ≥ T - W - 0.5,
every appended sample with time ≥ T - W - 0.5 is still present in its series
(no over-eviction), and each series is a suffix of the full appended
sequence (eviction happens only at the front). -/
theorem buffer_window_retention (mode : Mode) (W : ℝ) (es : List AppendEntry)
    (elast : AppendEntry) (hW : 0 ≤ W) (hlast : es.getLast? = some elast)
    (hchain : List.Chain' (· ≤ ·) (es.map AppendEntry.time)) :
    (∀ q ∈ (runAppends mode (initGD W) es).position, elast.time - W - 0.5 ≤ q.x) ∧
    (∀ q ∈ (runAppends mode (initGD W) es).velocity, elast.time - W - 0.5 ≤ q.x) ∧
    (∀ q ∈ (runAppends mode (initGD W) es).acceleration, elast.time - W - 0.5 ≤ q.x) ∧
    (∀ e ∈ es, elast.time - W - 0.5 ≤ e.time →
      posPoint mode e ∈ (runAppends mode (initGD W) es).position ∧
      velPoint e ∈ (runAppends mode (initGD W) es).velocity ∧
      accPoint e ∈ (runAppends mode (initGD W) es).acceleration) ∧
    (runAppends mode (initGD W) es).position <:+ es.map (posPoint mode) ∧
    (runAppends mode (initGD W) es).velocity <:+ es.map velPoint ∧
    (runAppends mode (initGD W) es).acceleration <:+ es.map accPoint := by
  obtain ⟨init, rfl⟩ := List.getLast?_eq_some_iff.mp hlast
  have hw0 : (initGD W).timeWindow = W := rfl
  -- suffix part
  have hsuf := runAppends_suffix mode (init ++ [elast]) (initGD W)
  have hp0 : (initGD W).position = [] := rfl
  have hv0 : (initGD W).velocity = [] := rfl
  have ha0 : (initGD W).acceleration = [] := rfl
  rw [hp0, List.nil_append] at hsuf
  rw [hv0, List.nil_append] at hsuf
  rw [ha0, List.nil_append] at hsuf
  -- invariant for the prefix, bounded by the final time
  have hInvPre : BufferInv elast.time (runAppends mode (initGD W) init) := by
    cases init with
    | nil =>
        rw [runAppends_nil]
        exact initGD_inv W elast.time
    | cons e0 rest =>
        have hchain2 := hchain
        rw [List.map_append] at hchain2
        simp only [List.map_cons, List.map_nil] at hchain2
        obtain ⟨hc1, -, hcx⟩ := List.chain'_append.mp hchain2
        have hch3 : List.Chain' (· ≤ ·)
            (e0.time :: (e0 :: rest).map AppendEntry.time) := by
          simp only [List.map_cons]
          exact List.chain'_cons.mpr ⟨le_refl _, hc1⟩
        have hinv := runAppends_inv mode (e0 :: rest) (initGD W) e0.time
          (initGD_inv W e0.time) hch3
        refine bufferInv_mono _ _ _ hinv ?_
        have hgl : (e0.time :: (e0 :: rest).map AppendEntry.time).getLast
            (List.cons_ne_nil _ _) =
            ((e0 :: rest).map AppendEntry.time).getLast (by simp) := by
          simp only [List.map_cons]
          exact List.getLast_cons (List.cons_ne_nil _ _)
        rw [hgl]
        exact hcx _ (List.getLast?_eq_getLast _ (by simp)) elast.time rfl
  -- one last append on top of the prefix
  have hsplit : runAppends mode (initGD W) (init ++ [elast]) =
      addDataPoint mode (runAppends mode (initGD W) init)
        elast.time elast.pos elast.vel elast.acc := by
    rw [runAppends_split]
    rfl
  have hret := addDataPoint_retention mode (runAppends mode (initGD W) init)
    elast.time elast hInvPre (le_refl _)
  rw [runAppends_timeWindow mode init (initGD W), hw0, ← hsplit] at hret
  -- no over-eviction, over the whole sequence
  obtain ⟨e0, rest, hcons⟩ : ∃ e0 rest, init ++ [elast] = e0 :: rest := by
    cases init with
    | nil => exact ⟨elast, [], rfl⟩
    | cons i0 itl => exact ⟨i0, itl ++ [elast], rfl⟩
  have hch4 : List.Chain' (· ≤ ·)
      (e0.time :: (init ++ [elast]).map AppendEntry.time) := by
    rw [hcons]
    simp only [List.map_cons]
    refine List.chain'_cons.mpr ⟨le_refl _, ?_⟩
    have hc := hchain
    rw [hcons] at hc
    simpa using hc
  have hD := runAppends_insert mode (init ++ [elast]) (initGD W) e0.time
    (initGD_inv W _) hch4 (by rw [hw0]; exact hW)
  have hglD : (e0.time :: (init ++ [elast]).map AppendEntry.time).getLast
      (List.cons_ne_nil _ _) = elast.time := by
    have h2 : (e0.time :: (init ++ [elast]).map AppendEntry.time).getLast? =
        some elast.time := by
      have hrw : e0.time :: (init ++ [elast]).map AppendEntry.time =
          (e0.time :: init.map AppendEntry.time) ++ [elast.time] := by simp
      rw [hrw, List.getLast?_concat]
    have h1 := List.getLast?_eq_getLast
      (e0.time :: (init ++ [elast]).map AppendEntry.time) (List.cons_ne_nil _ _)
    rw [h1, Option.some.injEq] at h2
    exact h2
  rw [hglD, hw0] at hD
  exact ⟨hret.1, hret.2.1, hret.2.2, hD, hsuf.1, hsuf.2.1, hsuf.2.2⟩

/-- Claim C3 witness: a single append at time 0 with window 5 satisfies the
hypotheses, and the conclusion holds for it. -/
theorem buffer_window_retention_witness :
    (0 : ℝ) ≤ 5 ∧
    ([(⟨0, 1, 2, 3⟩ : AppendEntry)].getLast? = some (⟨0, 1, 2, 3⟩ : AppendEntry)) ∧
    List.Chain' (· ≤ ·) ([(⟨0, 1, 2, 3⟩ : AppendEntry)].map AppendEntry.time) ∧
    ((∀ q ∈ (runAppends Mode.spring (initGD 5) [⟨0, 1, 2, 3⟩]).position,
        (⟨0, 1, 2, 3⟩ : AppendEntry).time - 5 - 0.5 ≤ q.x) ∧
    (∀ q ∈ (runAppends Mode.spring (initGD 5) [⟨0, 1, 2, 3⟩]).velocity,
        (⟨0, 1, 2, 3⟩ : AppendEntry).time - 5 - 0.5 ≤ q.x) ∧
    (∀ q ∈ (runAppends Mode.spring (initGD 5) [⟨0, 1, 2, 3⟩]).acceleration,
        (⟨0, 1, 2, 3⟩ : AppendEntry).time - 5 - 0.5 ≤ q.x) ∧
    (∀ e ∈ [(⟨0, 1, 2, 3⟩ : AppendEntry)],
        (⟨0, 1, 2, 3⟩ : AppendEntry).time - 5 - 0.5 ≤ e.time →
      posPoint Mode.spring e ∈ (runAppends Mode.spring (initGD 5) [⟨0, 1, 2, 3⟩]).position ∧
      velPoint e ∈ (runAppends Mode.spring (initGD 5) [⟨0, 1, 2, 3⟩]).velocity ∧
      accPoint e ∈ (runAppends Mode.spring (initGD 5) [⟨0, 1, 2, 3⟩]).acceleration) ∧
    (runAppends Mode.spring (initGD 5) [⟨0, 1, 2, 3⟩]).position <:+
      [(⟨0, 1, 2, 3⟩ : AppendEntry)].map (posPoint Mode.spring) ∧
    (runAppends Mode.spring (initGD 5) [⟨0, 1, 2, 3⟩]).velocity <:+
      [(⟨0, 1, 2, 3⟩ : AppendEntry)].map velPoint ∧
    (runAppends Mode.spring (initGD 5) [⟨0, 1, 2, 3⟩]).acceleration <:+
      [(⟨0, 1, 2, 3⟩ : AppendEntry)].map accPoint) :=
  ⟨by norm_num, rfl, by simp,
    buffer_window_retention Mode.spring 5 [⟨0, 1, 2, 3⟩] ⟨0, 1, 2, 3⟩
      (by norm_num) rfl (by simp)⟩

/-- Claim C10: the three series stay parallel — equal lengths and identical
time coordinates element by element — after an append with its eviction
batch (which removes the front of all three series together), and after the
clearing performed by reset, mode switch and drag start, which empties all
three series; resetSimulation clears the buffer exactly via clearGraphData. -/
theorem series_parallel_invariant (mode : Mode) (gd : GraphData) (t a b c : ℝ)
    (sim : Simulation) (h : Parallel gd) :
    Parallel (addDataPoint mode gd t a b c) ∧
    (addDataPoint mode gd t a b c).velocity.length =
      (addDataPoint mode gd t a b c).position.length ∧
    (addDataPoint mode gd t a b c).acceleration.length =
      (addDataPoint mode gd t a b c).position.length ∧
    Parallel (clearGraphData gd) ∧
    (clearGraphData gd).position = [] ∧ (clearGraphData gd).velocity = [] ∧
    (clearGraphData gd).acceleration = [] ∧
    (resetSimulation sim gd).2 = clearGraphData gd := by
  obtain ⟨hv, ha⟩ := h
  have hv2 : (gd.velocity ++ [(⟨t, b⟩ : DataPoint)]).map DataPoint.x =
      (gd.position ++
        [(⟨t, if mode = Mode.pendulum then a * 180 / π else a⟩ : DataPoint)]).map
          DataPoint.x := by
    simp [hv]
  have ha2 : (gd.acceleration ++ [(⟨t, c⟩ : DataPoint)]).map DataPoint.x =
      (gd.position ++
        [(⟨t, if mode = Mode.pendulum then a * 180 / π else a⟩ : DataPoint)]).map
          DataPoint.x := by
    simp [ha]
  have hpar := evictLoop_parallel (t - gd.timeWindow - 0.5) _ _ _ hv2 ha2
  have hP : Parallel (addDataPoint mode gd t a b c) := by
    rw [addDataPoint_eq]
    exact ⟨hpar.1, hpar.2⟩
  have hP' : (addDataPoint mode gd t a b c).velocity.map DataPoint.x =
      (addDataPoint mode gd t a b c).position.map DataPoint.x ∧
      (addDataPoint mode gd t a b c).acceleration.map DataPoint.x =
      (addDataPoint mode gd t a b c).position.map DataPoint.x := hP
  refine ⟨hP, ?_, ?_, ⟨rfl, rfl⟩, rfl, rfl, rfl, rfl⟩
  · have hlen := congrArg List.length hP'.1
    simpa using hlen
  · have hlen := congrArg List.length hP'.2
    simpa using hlen

/-- Claim C10 witness: the empty buffer is parallel, and the conclusion holds
for an append at time 0 on it. -/
theorem series_parallel_invariant_witness :
    Parallel (initGD 5) ∧
    (Parallel (addDataPoint Mode.spring (initGD 5) 0 0 0 0) ∧
    (addDataPoint Mode.spring (initGD 5) 0 0 0 0).velocity.length =
      (addDataPoint Mode.spring (initGD 5) 0 0 0 0).position.length ∧
    (addDataPoint Mode.spring (initGD 5) 0 0 0 0).acceleration.length =
      (addDataPoint Mode.spring (initGD 5) 0 0 0 0).position.length ∧
    Parallel (clearGraphData (initGD 5)) ∧
    (clearGraphData (initGD 5)).position = [] ∧
    (clearGraphData (initGD 5)).velocity = [] ∧
    (clearGraphData (initGD 5)).acceleration = [] ∧
    (resetSimulation ⟨0, false, none, 0, 1⟩ (initGD 5)).2 = clearGraphData (initGD 5)) :=
  ⟨⟨rfl, rfl⟩,
    series_parallel_invariant Mode.spring (initGD 5) 0 0 0 0
      ⟨0, false, none, 0, 1⟩ ⟨rfl, rfl⟩⟩

/-- Claim C9 witness: with ω = 1 and window [1, 0] the annotator returns
three empty lists. -/
theorem keypoints_empty_window_witness :
    0 < calculateOmega Mode.spring unitParams ∧ (0 : ℝ) < 1 ∧
      calculateKeyPoints Mode.spring unitParams 0 1 0 SignalType.position =
        ([], [], []) := by
  have hw : 0 < calculateOmega Mode.spring unitParams := by
    unfold calculateOmega unitParams
    positivity
  exact ⟨hw, one_pos,
    keypoints_empty_window Mode.spring unitParams 0 1 0 SignalType.position hw one_pos⟩

end
